import Mathlib

/-!
Verification of `cryptoz/utils.py` (windowing, normalization, rescaling and
column-combination helpers for tabular time-series data).

Modelling conventions:
* a series (`pd.Series` of numbers) is a `List ℚ`; a table (`pd.DataFrame`)
  is a `List (List ℚ)` of its columns (the default `axis=0` policy applies
  every reducer column by column), or, where the row index matters
  (`select_window`), a `List (ℚ × ℚ)` of `(index, value)` rows;
* pandas reductions `sr.max()` / `sr.min()` / `sr.mean()` are `sMax`, `sMin`,
  `sMean`; rational arithmetic is exact, so the floating-point tolerances of
  the spec become exact equalities;
* a Python call either returns a value or raises; result types with a
  `raised` constructor make the distinction expressible, and the embedded
  code only ever uses the returning constructors because the source contains
  no `raise` statement.
-/

namespace Cryptoz

/-- `sr.max()`: maximum of a series. Pandas returns NaN on an empty series;
the `[]` case is junk (never relied upon by a theorem without a
nonemptiness guard). -/
def sMax : List ℚ → ℚ
  | [] => 0
  | x :: xs => xs.foldl max x

/-- `sr.min()`: minimum of a series, same conventions as `sMax`. -/
def sMin : List ℚ → ℚ
  | [] => 0
  | x :: xs => xs.foldl min x

/-- `sr.mean()`: arithmetic mean of a series. -/
def sMean (s : List ℚ) : ℚ := s.sum / s.length

/-- Stand-in for the external pandas collaborator `sr.std()`: the sample
standard deviation is a square root, not representable in `ℚ`. No claim in
this development depends on its value — only on the fact that the method
name `std` is recognized by `normalize_sr` and yields a returned series. -/
def sStd (_ : List ℚ) : ℚ := 0

/-- Outcome of `normalize_sr`: either a returned series, the Python `None`
that an `if`-chain with no `else` falls through to, or a raised exception
(expressible so that the spec's `InvalidMethodError` claim can be stated;
the source never raises). -/
inductive NormResult where
  | ok : List ℚ → NormResult
  | pynone : NormResult
  | raised : String → NormResult
deriving DecidableEq

/-- `normalize_sr(sr, method)`: dispatch on the method name; an
unrecognized name falls off the end of the `if`-chain (Python `None`). -/
def normalize_sr (s : List ℚ) (method : String) : NormResult :=
  if method = "max" then .ok (s.map fun x => x / sMax s)
  else if method = "minmax" then .ok (s.map fun x => (x - sMin s) / (sMax s - sMin s))
  else if method = "mean" then .ok (s.map fun x => (x - sMean s) / (sMax s - sMin s))
  else if method = "std" then .ok (s.map fun x => (x - sMean s) / sStd s)
  else .pynone

/-- `normalize(df, method)`: the default `axis=0` applies `normalize_sr`
to every column. -/
def normalize (df : List (List ℚ)) (method : String) : List NormResult :=
  df.map fun col => normalize_sr col method

/-- Outcome of a windowing call: either a returned table of `(index, value)`
rows or a raised exception (expressible so that the spec's `EmptyTableError`
claim can be stated; the source never raises). -/
inductive WinResult where
  | table : List (ℚ × ℚ) → WinResult
  | raised : String → WinResult
deriving DecidableEq

/-- `df.index.max()` over the rows of a table. Pandas yields NaN on an empty
index; `none` models that undefined value. -/
def idxMax (df : List (ℚ × ℚ)) : Option ℚ :=
  match df with
  | [] => none
  | r :: rest => some (sMax (r.1 :: rest.map Prod.fst))

/-- `select_window(df, window)`: `df[df.index > df.index.max() - window]`.
On an empty table the index maximum is NaN and the NaN comparison selects
nothing, so pandas returns an empty table rather than raising. -/
def select_window (df : List (ℚ × ℚ)) (window : ℚ) : WinResult :=
  match idxMax df with
  | none => .table []
  | some m => .table (df.filter fun r => decide (m - window < r.1))

/-- One column of `df.rolling(span, min_periods=minp).apply(func)`: at
position `i` the window is the up to `span` rows ending at `i`; a value is
produced once at least `minp` rows are available, else a missing value. -/
def rolling_fwd (span minp : ℕ) (f : List ℚ → ℚ) (s : List ℚ) : List (Option ℚ) :=
  (List.range s.length).map fun i =>
    if minp ≤ min (i + 1) span then some (f ((s.take (i + 1)).drop (i + 1 - span)))
    else none

/-- `rolling_apply(df, func, backwards, ...)` on one column: the `backwards`
branch is `df.iloc[::-1].rolling(...).apply(func).iloc[::-1]` — reverse the
rows, roll forward, reverse the result back. -/
def rolling_apply (s : List ℚ) (f : List ℚ → ℚ) (backwards : Bool) (span minp : ℕ) :
    List (Option ℚ) :=
  if backwards then (rolling_fwd span minp f s.reverse).reverse
  else rolling_fwd span minp f s

/-- `product(cols)`: `itertools.product(cols, repeat=2)`, every ordered pair. -/
def product {α : Type} (cols : List α) : List (α × α) :=
  cols.flatMap fun a => cols.map fun b => (a, b)

/-- `combine(cols)`: `itertools.combinations(cols, 2)`, unordered pairs of
distinct positions in listed order. -/
def combine {α : Type} : List α → List (α × α)
  | [] => []
  | x :: xs => (xs.map fun y => (x, y)) ++ combine xs

/-- `combine_rep(cols)`: `itertools.combinations_with_replacement(cols, 2)`. -/
def combine_rep {α : Type} : List α → List (α × α)
  | [] => []
  | x :: xs => ((x :: xs).map fun y => (x, y)) ++ combine_rep xs

/-- `rescale_single(x, from_range, to_range)`: identity short-circuit when
the two ranges are equal, otherwise the affine map between the ranges. -/
def rescale_single (x : ℚ) (from_range to_range : ℚ × ℚ) : ℚ :=
  if from_range = to_range then x
  else (x - from_range.1) * (to_range.2 - to_range.1) / (from_range.2 - from_range.1)
        + to_range.1

/-- `dynamic_rescale(df, from_range, to_range)`: the affine formula applied
elementwise, with no equal-ranges short-circuit. In exact rationals the
division by a zero span totalizes to `0` (standing in for the float NaN);
either way the output differs from the input. -/
def dynamic_rescale (df : List ℚ) (from_range to_range : ℚ × ℚ) : List ℚ :=
  df.map fun x =>
    (x - from_range.1) * (to_range.2 - to_range.1) / (from_range.2 - from_range.1)
      + to_range.1

/-- `reverse_scale(df)`: `nanmin(a) + nanmax(a) - a` applied per column
(the default `axis=0` policy). -/
def reverse_scale (df : List (List ℚ)) : List (List ℚ) :=
  df.map fun col => col.map fun x => sMin col + sMax col - x

/-! ### Elementary facts about `sMax` and `sMin` -/

lemma foldl_max_mem (xs : List ℚ) (a : ℚ) : xs.foldl max a = a ∨ xs.foldl max a ∈ xs := by
  induction xs generalizing a with
  | nil => exact Or.inl rfl
  | cons y ys ih =>
    rcases ih (max a y) with h | h
    · rcases max_choice a y with hm | hm
      · exact Or.inl (by rw [List.foldl_cons, h, hm])
      · exact Or.inr (by rw [List.foldl_cons, h, hm]; exact List.mem_cons_self _ _)
    · exact Or.inr (List.mem_cons_of_mem _ h)

lemma init_le_foldl_max (xs : List ℚ) (a : ℚ) : a ≤ xs.foldl max a := by
  induction xs generalizing a with
  | nil => exact le_rfl
  | cons y ys ih => exact le_trans (le_max_left a y) (ih (max a y))

lemma mem_le_foldl_max (xs : List ℚ) (a : ℚ) : ∀ x ∈ xs, x ≤ xs.foldl max a := by
  induction xs generalizing a with
  | nil => intro x hx; cases hx
  | cons y ys ih =>
    intro x hx
    rcases List.mem_cons.mp hx with rfl | hx
    · exact le_trans (le_max_right a x) (init_le_foldl_max ys (max a x))
    · exact ih (max a y) x hx

lemma foldl_min_mem (xs : List ℚ) (a : ℚ) : xs.foldl min a = a ∨ xs.foldl min a ∈ xs := by
  induction xs generalizing a with
  | nil => exact Or.inl rfl
  | cons y ys ih =>
    rcases ih (min a y) with h | h
    · rcases min_choice a y with hm | hm
      · exact Or.inl (by rw [List.foldl_cons, h, hm])
      · exact Or.inr (by rw [List.foldl_cons, h, hm]; exact List.mem_cons_self _ _)
    · exact Or.inr (List.mem_cons_of_mem _ h)

lemma foldl_min_le_init (xs : List ℚ) (a : ℚ) : xs.foldl min a ≤ a := by
  induction xs generalizing a with
  | nil => exact le_rfl
  | cons y ys ih => exact le_trans (ih (min a y)) (min_le_left a y)

lemma foldl_min_le_mem (xs : List ℚ) (a : ℚ) : ∀ x ∈ xs, xs.foldl min a ≤ x := by
  induction xs generalizing a with
  | nil => intro x hx; cases hx
  | cons y ys ih =>
    intro x hx
    rcases List.mem_cons.mp hx with rfl | hx
    · exact le_trans (foldl_min_le_init ys (min a x)) (min_le_right a x)
    · exact ih (min a y) x hx

lemma sMax_mem {s : List ℚ} (h : s ≠ []) : sMax s ∈ s := by
  cases s with
  | nil => exact absurd rfl h
  | cons x xs =>
    rcases foldl_max_mem xs x with h' | h'
    · have e : sMax (x :: xs) = x := h'
      rw [e]; exact List.mem_cons_self _ _
    · exact List.mem_cons_of_mem _ h'

lemma le_sMax {s : List ℚ} {x : ℚ} (h : x ∈ s) : x ≤ sMax s := by
  cases s with
  | nil => cases h
  | cons y ys =>
    rcases List.mem_cons.mp h with rfl | h
    · exact init_le_foldl_max ys x
    · exact mem_le_foldl_max ys y x h

lemma sMin_mem {s : List ℚ} (h : s ≠ []) : sMin s ∈ s := by
  cases s with
  | nil => exact absurd rfl h
  | cons x xs =>
    rcases foldl_min_mem xs x with h' | h'
    · have e : sMin (x :: xs) = x := h'
      rw [e]; exact List.mem_cons_self _ _
    · exact List.mem_cons_of_mem _ h'

lemma sMin_le {s : List ℚ} {x : ℚ} (h : x ∈ s) : sMin s ≤ x := by
  cases s with
  | nil => cases h
  | cons y ys =>
    rcases List.mem_cons.mp h with rfl | h
    · exact foldl_min_le_init ys x
    · exact foldl_min_le_mem ys y x h

lemma map_ne_nil {f : ℚ → ℚ} {s : List ℚ} (h : s ≠ []) : s.map f ≠ [] := by
  simpa using h

lemma sMax_map_mono {f : ℚ → ℚ} (hf : Monotone f) {s : List ℚ} (h : s ≠ []) :
    sMax (s.map f) = f (sMax s) := by
  apply le_antisymm
  · rcases List.mem_map.mp (sMax_mem (map_ne_nil h)) with ⟨a, ha, hae⟩
    exact hae ▸ hf (le_sMax ha)
  · exact le_sMax (List.mem_map_of_mem f (sMax_mem h))

lemma sMin_map_mono {f : ℚ → ℚ} (hf : Monotone f) {s : List ℚ} (h : s ≠ []) :
    sMin (s.map f) = f (sMin s) := by
  apply le_antisymm
  · exact sMin_le (List.mem_map_of_mem f (sMin_mem h))
  · rcases List.mem_map.mp (sMin_mem (map_ne_nil h)) with ⟨a, ha, hae⟩
    exact hae ▸ hf (sMin_le ha)

lemma sMax_map_anti {f : ℚ → ℚ} (hf : Antitone f) {s : List ℚ} (h : s ≠ []) :
    sMax (s.map f) = f (sMin s) := by
  apply le_antisymm
  · rcases List.mem_map.mp (sMax_mem (map_ne_nil h)) with ⟨a, ha, hae⟩
    exact hae ▸ hf (sMin_le ha)
  · exact le_sMax (List.mem_map_of_mem f (sMin_mem h))

lemma sMin_map_anti {f : ℚ → ℚ} (hf : Antitone f) {s : List ℚ} (h : s ≠ []) :
    sMin (s.map f) = f (sMax s) := by
  apply le_antisymm
  · exact sMin_le (List.mem_map_of_mem f (sMax_mem h))
  · rcases List.mem_map.mp (sMin_mem (map_ne_nil h)) with ⟨a, ha, hae⟩
    exact hae ▸ hf (le_sMax ha)

/-! ### The window seen by a reversed forward roll -/

lemma window_reverse (s : List ℚ) (i span : ℕ) (hi : i < s.length) :
    (List.take (s.length - i) s.reverse).drop (s.length - i - span)
      = ((s.drop i).take span).reverse := by
  rw [List.take_reverse]
  have e1 : s.length - (s.length - i) = i := by omega
  rw [e1, List.drop_reverse]
  congr 1
  rw [List.take_eq_take]
  simp only [List.length_drop]
  omega

/-! ### Counting lemmas for the combination generators -/

lemma sum_map_const_nat {α : Type} (l : List α) (c : ℕ) :
    (l.map fun _ => c).sum = l.length * c := by
  induction l with
  | nil => simp
  | cons x xs ih =>
    simp only [List.map_cons, List.sum_cons, ih, List.length_cons]
    ring

lemma length_product {α : Type} (cols : List α) :
    (product cols).length = cols.length * cols.length := by
  unfold product
  rw [List.length_flatMap]
  have e : List.map (List.length ∘ fun a => cols.map fun b => (a, b)) cols
      = List.map (fun _ => cols.length) cols := by
    apply List.map_congr_left; intro a _; simp
  rw [e, sum_map_const_nat]

lemma combine_len_aux {α : Type} (cols : List α) :
    2 * (combine cols).length + 2 * cols.length = cols.length * cols.length + cols.length := by
  induction cols with
  | nil => simp [combine]
  | cons x xs ih =>
    have hsq : (xs.length + 1) * (xs.length + 1) = xs.length * xs.length + 2 * xs.length + 1 := by
      ring
    simp only [combine, List.length_append, List.length_map, List.length_cons]
    rw [hsq]
    linarith [ih]

lemma combine_rep_len_aux {α : Type} (cols : List α) :
    2 * (combine_rep cols).length = cols.length * cols.length + cols.length := by
  induction cols with
  | nil => simp [combine_rep]
  | cons x xs ih =>
    have hsq : (xs.length + 1) * (xs.length + 1) = xs.length * xs.length + 2 * xs.length + 1 := by
      ring
    simp only [combine_rep, List.length_append, List.length_map, List.length_cons]
    rw [hsq]
    linarith [ih]

lemma length_combine {α : Type} (cols : List α) :
    (combine cols).length = cols.length * (cols.length - 1) / 2 := by
  have h := combine_len_aux cols
  have h2 : cols.length * (cols.length - 1) = cols.length * cols.length - cols.length := by
    cases hn : cols.length with
    | zero => simp
    | succ m => simp [Nat.succ_sub_one, Nat.mul_succ]
  rw [h2]
  generalize hK : cols.length * cols.length = K at h ⊢
  omega

lemma length_combine_rep {α : Type} (cols : List α) :
    (combine_rep cols).length = cols.length * (cols.length + 1) / 2 := by
  have h := combine_rep_len_aux cols
  have h2 : cols.length * (cols.length + 1) = cols.length * cols.length + cols.length := by ring
  rw [h2]
  generalize hK : cols.length * cols.length = K at h ⊢
  omega

lemma combine_no_diagonal {α : Type} {cols : List α} (h : cols.Nodup) :
    ∀ p ∈ combine cols, p.1 ≠ p.2 := by
  induction cols with
  | nil => intro p hp; cases hp
  | cons x xs ih =>
    intro p hp
    rcases List.mem_append.mp hp with hp | hp
    · rcases List.mem_map.mp hp with ⟨y, hy, rfl⟩
      intro he
      have he' : x = y := he
      exact (List.nodup_cons.mp h).1 (he' ▸ hy)
    · exact ih (List.nodup_cons.mp h).2 p hp

lemma self_mem_product {α : Type} {a : α} {cols : List α} (h : a ∈ cols) :
    (a, a) ∈ product cols :=
  List.mem_flatMap.mpr ⟨a, h, List.mem_map_of_mem _ h⟩

lemma self_mem_combine_rep {α : Type} {a : α} : ∀ {cols : List α},
    a ∈ cols → (a, a) ∈ combine_rep cols := by
  intro cols
  induction cols with
  | nil => intro h; cases h
  | cons x xs ih =>
    intro h
    rcases List.mem_cons.mp h with rfl | h
    · exact List.mem_append_left _ (List.mem_map_of_mem _ (List.mem_cons_self _ _))
    · exact List.mem_append_right _ (ih h)

/-! ### Reflection across a column's value range -/

lemma reflect_reflect {col : List ℚ} (h : col ≠ []) :
    ((col.map fun x => sMin col + sMax col - x).map
        fun x => sMin (col.map fun y => sMin col + sMax col - y)
               + sMax (col.map fun y => sMin col + sMax col - y) - x) = col := by
  have hanti : Antitone fun x : ℚ => sMin col + sMax col - x := by
    intro a b hab
    dsimp only
    linarith
  have h1 : sMin (col.map fun y => sMin col + sMax col - y)
      = sMin col + sMax col - sMax col := sMin_map_anti hanti h
  have h2 : sMax (col.map fun y => sMin col + sMax col - y)
      = sMin col + sMax col - sMin col := sMax_map_anti hanti h
  simp only [h1, h2, List.map_map]
  conv_rhs => rw [← List.map_id col]
  apply List.map_congr_left
  intro a _
  simp only [Function.comp_apply, id_eq]
  ring

/-! ## The claims -/

/-- C1, counterexample: the claim says an unrecognized normalization method
makes `normalize_sr` raise `InvalidMethodError` rather than return; on the
concrete input `sr=[1]`, `method="zscore"` the `if`-chain of the source falls
through and the call returns Python `None` — a normal return, not a raise
(the source defines no exception class at all). -/
theorem normalize_sr_unknown_no_exception :
    normalize_sr [(1 : ℚ)] "zscore" = NormResult.pynone
    ∧ NormResult.pynone ≠ NormResult.raised "InvalidMethodError" := by decide

/-- C1, amended: for every series and every method name other than `max`,
`minmax`, `mean`, `std`, `normalize_sr` returns Python `None` (it falls off
the end of the `if`-chain without raising), and `normalize` propagates that
`None` for every column. -/
theorem normalize_sr_unknown_returns_none (s : List ℚ) (df : List (List ℚ)) (method : String)
    (h1 : method ≠ "max") (h2 : method ≠ "minmax") (h3 : method ≠ "mean")
    (h4 : method ≠ "std") :
    normalize_sr s method = NormResult.pynone
    ∧ normalize df method = df.map fun _ => NormResult.pynone := by
  have e : ∀ t : List ℚ, normalize_sr t method = NormResult.pynone := by
    intro t
    simp [normalize_sr, h1, h2, h3, h4]
  exact ⟨e s, by unfold normalize; exact List.map_congr_left fun col _ => e col⟩

/-- Witness for the amended C1 at `sr=[1]`, `df=[[1],[2]]`, `method="zscore"`. -/
theorem normalize_sr_unknown_returns_none_witness :
    normalize_sr [(1 : ℚ)] "zscore" = NormResult.pynone
    ∧ normalize [[(1 : ℚ)], [2]] "zscore" = [NormResult.pynone, NormResult.pynone] := by
  have h := normalize_sr_unknown_returns_none [(1 : ℚ)] [[(1 : ℚ)], [2]] "zscore"
    (by decide) (by decide) (by decide) (by decide)
  exact ⟨h.1, by rw [h.2]; rfl⟩

/-- C2, counterexample: the claim says `select_window` on a table with zero
rows raises `EmptyTableError` instead of returning a table; on the concrete
empty table it returns the empty table (pandas' NaN index maximum selects
nothing), a normal return, not a raise. -/
theorem select_window_empty_no_exception :
    select_window [] 1 = WinResult.table []
    ∧ WinResult.table [] ≠ WinResult.raised "EmptyTableError" := by decide

/-- C2, amended: on an empty table `select_window` returns an empty table
(no error); on a table with at least one row it returns exactly the rows
whose index value is strictly greater than the maximal index minus the span:
the result is the filter of the rows by that condition, the bound is the
maximal index, and a row passes the filter exactly when it is a row of the
table with index above the bound. -/
theorem select_window_trailing_rows (df : List (ℚ × ℚ)) (w m : ℚ)
    (hm : idxMax df = some m) :
    select_window df w = WinResult.table (df.filter fun r => decide (m - w < r.1))
    ∧ (∀ r ∈ df, r.1 ≤ m)
    ∧ ∀ r : ℚ × ℚ, (r ∈ df.filter fun r => decide (m - w < r.1)) ↔ r ∈ df ∧ m - w < r.1 := by
  refine ⟨?_, ?_, ?_⟩
  · unfold select_window
    rw [hm]
  · cases df with
    | nil => intro r hr; cases hr
    | cons r0 rest =>
      simp only [idxMax, Option.some.injEq] at hm
      intro r hr
      rw [← hm]
      apply le_sMax
      rcases List.mem_cons.mp hr with rfl | hr
      · exact List.mem_cons_self _ _
      · exact List.mem_cons_of_mem _ (List.mem_map_of_mem Prod.fst hr)
  · intro r
    simp [List.mem_filter]

/-- Witness for the amended C2: rows indexed 1,2,3 with span 1 keep exactly
the row with index 3 (strictly above 3 − 1 = 2). -/
theorem select_window_trailing_rows_witness :
    select_window [((1 : ℚ), 10), (2, 20), (3, 30)] 1 = WinResult.table [(3, 30)] := by
  have h := (select_window_trailing_rows [((1 : ℚ), 10), (2, 20), (3, 30)] 1 3 (by decide)).1
  rw [h]
  norm_num [List.filter_cons, List.filter_nil]

/-- C3: for every non-empty series, the `mean` method returns the series
`(s − mean(s)) / (max(s) − min(s))` elementwise; in particular, on
`[1,2,3,4,5]` it returns `[-1/2, -1/4, 0, 1/4, 1/2]`. -/
theorem mean_normalization_formula :
    (∀ s : List ℚ, s ≠ [] →
      ∃ l, normalize_sr s "mean" = NormResult.ok l ∧
        ∀ i : ℕ, l[i]? = Option.map (fun x => (x - sMean s) / (sMax s - sMin s)) s[i]?)
    ∧ normalize_sr [1, 2, 3, 4, 5] "mean"
        = NormResult.ok [-(1 / 2), -(1 / 4), 0, 1 / 4, 1 / 2] := by
  constructor
  · intro s _
    refine ⟨s.map fun x => (x - sMean s) / (sMax s - sMin s), by simp [normalize_sr], ?_⟩
    intro i
    rw [List.getElem?_map]
  · have e : normalize_sr [1, 2, 3, 4, 5] "mean"
        = NormResult.ok (List.map
            (fun x => (x - sMean [1, 2, 3, 4, 5]) / (sMax [1, 2, 3, 4, 5] - sMin [1, 2, 3, 4, 5]))
            [1, 2, 3, 4, 5]) := by
      simp [normalize_sr]
    have hmean : sMean [1, 2, 3, 4, 5] = 3 := by
      norm_num [sMean, List.sum_cons, List.sum_nil]
    have hmax : sMax [1, 2, 3, 4, 5] = 5 := by decide
    have hmin : sMin [1, 2, 3, 4, 5] = 1 := by decide
    rw [e]
    simp only [hmean, hmax, hmin, List.map_cons, List.map_nil]
    norm_num

/-- Witness for C3 at the non-empty series `[9, 11]`. -/
theorem mean_normalization_formula_witness :
    ∃ l, normalize_sr [9, 11] "mean" = NormResult.ok l ∧
      ∀ i : ℕ, l[i]? = Option.map
        (fun x => (x - sMean [9, 11]) / (sMax [9, 11] - sMin [9, 11])) ([9, 11] : List ℚ)[i]? :=
  mean_normalization_formula.1 [9, 11] (by decide)

/-- C4: for every non-degenerate series (`min(s) < max(s)`), the result of
`minmax` normalization has minimum exactly 0 and maximum exactly 1 (exact
rational arithmetic, so the floating tolerance is not needed). -/
theorem minmax_normalization_bounds (s : List ℚ) (hd : sMin s < sMax s) :
    ∃ l, normalize_sr s "minmax" = NormResult.ok l ∧ sMin l = 0 ∧ sMax l = 1 := by
  have hne : s ≠ [] := by
    rintro rfl
    simp [sMin, sMax] at hd
  have hdpos : (0 : ℚ) < sMax s - sMin s := sub_pos.mpr hd
  have hmono : Monotone fun x : ℚ => (x - sMin s) / (sMax s - sMin s) := by
    intro a b hab
    dsimp only
    exact div_le_div_of_nonneg_right (by linarith) (le_of_lt hdpos)
  refine ⟨s.map fun x => (x - sMin s) / (sMax s - sMin s), by simp [normalize_sr], ?_, ?_⟩
  · rw [sMin_map_mono hmono hne]
    simp
  · rw [sMax_map_mono hmono hne]
    exact div_self (ne_of_gt hdpos)

/-- Witness for C4 at the non-degenerate series `[1, 3, 2]`. -/
theorem minmax_normalization_bounds_witness :
    ∃ l, normalize_sr [1, 3, 2] "minmax" = NormResult.ok l ∧ sMin l = 0 ∧ sMax l = 1 :=
  minmax_normalization_bounds [1, 3, 2] (by decide)

/-- C5: rescaling from a range to the same range is the exact identity, for
every value and every range, degenerate ranges (`min = max`) included: the
equality short-circuit returns the input before any arithmetic. -/
theorem rescale_identity_range (x : ℚ) (r : ℚ × ℚ) : rescale_single x r r = x := by
  simp [rescale_single]

/-- C6: for distinct ranges with positive spans, rescaling there and back is
the identity — exact in rational arithmetic. -/
theorem rescale_round_trip (x : ℚ) (r1 r2 : ℚ × ℚ) (hne : r1 ≠ r2)
    (h1 : r1.1 < r1.2) (h2 : r2.1 < r2.2) :
    rescale_single (rescale_single x r1 r2) r2 r1 = x := by
  obtain ⟨a1, b1⟩ := r1
  obtain ⟨a2, b2⟩ := r2
  simp only [rescale_single, if_neg hne, if_neg (Ne.symm hne)]
  have d1 : b1 - a1 ≠ 0 := sub_ne_zero.mpr (ne_of_gt h1)
  have d2 : b2 - a2 ≠ 0 := sub_ne_zero.mpr (ne_of_gt h2)
  field_simp
  ring

/-- Witness for C6 at `x = 7`, ranges `(0, 1)` and `(2, 4)`. -/
theorem rescale_round_trip_witness :
    rescale_single (rescale_single 7 ((0 : ℚ), 1) ((2 : ℚ), 4)) ((2 : ℚ), 4) ((0 : ℚ), 1) = 7 :=
  rescale_round_trip 7 ((0 : ℚ), 1) ((2 : ℚ), 4) (by decide) (by norm_num) (by norm_num)

/-- C7: applying `reverse_scale` twice gives back the original table — the
reflected column has the same minimum and maximum as the original, so the
second reflection undoes the first (exact in rational arithmetic). -/
theorem reverse_scale_involution (df : List (List ℚ)) :
    reverse_scale (reverse_scale df) = df := by
  unfold reverse_scale
  rw [List.map_map]
  conv_rhs => rw [← List.map_id df]
  apply List.map_congr_left
  intro col _
  simp only [Function.comp_apply, id_eq]
  by_cases hc : col = []
  · subst hc
    rfl
  · exact reflect_reflect hc

/-- C8: backward rolling application is reverse-rows, forward roll, reverse
back, and consequently at each position `i` the backward window holds the
following `span` rows starting at `i` (handed to the reducer in reversed
order, missing value once fewer than `min_periods` rows remain). -/
theorem rolling_backward_reverses (s : List ℚ) (f : List ℚ → ℚ) (span minp : ℕ) :
    rolling_apply s f true span minp = (rolling_fwd span minp f s.reverse).reverse
    ∧ ∀ i : ℕ, i < s.length →
        (rolling_apply s f true span minp)[i]?
          = some (if minp ≤ min (s.length - i) span
                  then some (f (((s.drop i).take span).reverse)) else none) := by
  refine ⟨rfl, ?_⟩
  intro i hi
  show ((rolling_fwd span minp f s.reverse).reverse)[i]? = _
  have hlen : (rolling_fwd span minp f s.reverse).length = s.length := by
    simp [rolling_fwd]
  rw [List.getElem?_reverse (by rw [hlen]; exact hi), hlen]
  unfold rolling_fwd
  rw [List.getElem?_map, List.getElem?_range (by simp only [List.length_reverse]; omega),
    Option.map_some']
  have hj : s.length - 1 - i + 1 = s.length - i := by omega
  rw [hj, window_reverse s i span hi]

/-- Witness for C8: series `[1,2,3,4]`, span 2, `min_periods` 2, reducer
`head`: the backward value at position 1 is the head of the reversed window
`[3, 2]`, i.e. 3. -/
theorem rolling_backward_reverses_witness :
    (rolling_apply [1, 2, 3, 4] (fun l => l.headD 0) true 2 2)[1]? = some (some 3) := by
  have h := (rolling_backward_reverses [1, 2, 3, 4] (fun l => l.headD 0) 2 2).2 1 (by decide)
  rw [h]
  decide

/-- C9: for distinct column names, `product` has `n * n` ordered pairs,
`combine` has `n * (n-1) / 2` unordered pairs and no identical-element
pair, `combine_rep` has `n * (n+1) / 2` pairs, and `product` and
`combine_rep` both contain every identical-element pair `(a, a)`. -/
theorem combination_sizes {α : Type} (cols : List α) (h : cols.Nodup) :
    (product cols).length = cols.length * cols.length
    ∧ (combine cols).length = cols.length * (cols.length - 1) / 2
    ∧ (combine_rep cols).length = cols.length * (cols.length + 1) / 2
    ∧ (∀ p ∈ combine cols, p.1 ≠ p.2)
    ∧ ∀ a ∈ cols, (a, a) ∈ product cols ∧ (a, a) ∈ combine_rep cols :=
  ⟨length_product cols, length_combine cols, length_combine_rep cols,
    combine_no_diagonal h, fun _ ha => ⟨self_mem_product ha, self_mem_combine_rep ha⟩⟩

/-- Witness for C9 at the three distinct column names `[0, 1, 2]`. -/
theorem combination_sizes_witness :
    (product [0, 1, 2]).length = ([0, 1, 2] : List ℕ).length * ([0, 1, 2] : List ℕ).length
    ∧ (combine [0, 1, 2]).length
        = ([0, 1, 2] : List ℕ).length * (([0, 1, 2] : List ℕ).length - 1) / 2
    ∧ (combine_rep [0, 1, 2]).length
        = ([0, 1, 2] : List ℕ).length * (([0, 1, 2] : List ℕ).length + 1) / 2
    ∧ (∀ p ∈ combine [0, 1, 2], p.1 ≠ p.2)
    ∧ ∀ a ∈ ([0, 1, 2] : List ℕ), (a, a) ∈ product [0, 1, 2] ∧ (a, a) ∈ combine_rep [0, 1, 2] :=
  combination_sizes [0, 1, 2] (by decide)

/-- C10: `dynamic_rescale` applies the affine formula with no equal-ranges
short-circuit: with the degenerate equal ranges `(0,0)`, `(0,0)` the division
by the zero span is reached and input `[1]` maps to `[0]` (the rational
totalization `x / 0 = 0` standing in for the float NaN — either way not the
input), while `rescale_single` on the same ranges returns its input 1
unchanged. -/
theorem dynamic_rescale_no_shortcircuit :
    dynamic_rescale [1] (0, 0) (0, 0) = [0]
    ∧ dynamic_rescale [1] (0, 0) (0, 0) ≠ [1]
    ∧ rescale_single 1 (0, 0) (0, 0) = 1 := by
  have e : dynamic_rescale [1] (0, 0) (0, 0) = [0] := by
    simp [dynamic_rescale]
  refine ⟨e, ?_, by simp [rescale_single]⟩
  rw [e]
  simp

end Cryptoz
